import Mathlib

/-!
Shallow embedding of src/refresh.py (dynamic-playlist refresher).

Conventions of the embedding:
* TrackId is a String; the Python falsy test on an id (`if x`) is modelled
  as the test against the empty string.
* Sets used by the Python code (history_ids, avoid, ...) are modelled as
  lists with membership, which has the same semantics.
* Network endpoints are modelled as oracle inputs carried in the Env
  structure: provider pools are input lists, and the audio-features
  endpoint is a function from an id batch to Except (an exception) or a
  list of optional feature records, mirroring what spotipy returns.
* Python float arithmetic on the configuration fractions is modelled with
  exact rationals; math.floor and math.ceil are modelled by floor division
  on the rational representation.
* Python slicing xs[:k] for a possibly negative int k is modelled by
  sliceTo below.
-/

/-- Track identifiers are opaque strings; the empty string is the falsy id. -/
abbrev TrackId := String

/-- Helper state of uniq: ids already seen, newest first. -/
def uniqAux (seen : List TrackId) : List TrackId → List TrackId
  | [] => []
  | x :: xs => if x ≠ "" ∧ x ∉ seen then x :: uniqAux (x :: seen) xs else uniqAux seen xs

/-- Model of refresh.py uniq (lines 57-64): keep the first occurrence of each
non-empty id, preserving order. -/
def uniq (xs : List TrackId) : List TrackId := uniqAux [] xs

/-- The seen set of uniqAux after it has scanned the list, used to split
uniq over an append. -/
def seenAfter (seen : List TrackId) : List TrackId → List TrackId
  | [] => seen
  | x :: xs => if x ≠ "" ∧ x ∉ seen then seenAfter (x :: seen) xs else seenAfter seen xs

/-- Python slicing xs[:k] for an int k: a nonnegative k takes a prefix, a
negative k drops the last (-k) elements (clamped at zero). -/
def sliceTo (xs : List TrackId) (k : ℤ) : List TrackId :=
  if 0 ≤ k then xs.take k.toNat else xs.take (xs.length - (-k).toNat)

/-- Model of math.floor on an exact rational: floor division of the reduced
numerator by the (positive) denominator. -/
def pyFloor (q : ℚ) : ℤ := Int.fdiv q.num q.den

/-- Model of math.ceil on an exact rational. -/
def pyCeil (q : ℚ) : ℤ := -(pyFloor (-q))

/-- Fuelled worker for chunked; the fuel is the input length, which is
enough whenever the chunk size is positive. -/
def chunkedF {α : Type} (n : Nat) : Nat → List α → List (List α)
  | _, [] => []
  | 0, xs => [xs]
  | fuel+1, xs => xs.take n :: chunkedF n fuel (xs.drop n)

/-- Model of refresh.py chunked (lines 66-74): split a list into runs of n
elements, last run possibly shorter.  With n = 0 the Python generator
yields the whole buffer once at the end (never hit by this program, which
uses sizes 25, 50 and 100). -/
def chunked {α : Type} (xs : List α) (n : Nat) : List (List α) :=
  if n = 0 then (if xs.isEmpty then [] else [xs]) else chunkedF n xs.length xs

/-- An audio-features record: the dict returned per track, with possibly
missing tempo or energy keys. -/
structure Feat where
  tempo : Option ℚ
  energy : Option ℚ
deriving DecidableEq

/-- The record modelling the Python `f or {}` default for a None entry. -/
def emptyFeat : Feat := ⟨none, none⟩

/-- Oracle for sp_app.audio_features: a batch of ids yields either an
exception (error) or a list of optional feature dicts aligned with the
batch (spotipy returns None entries for unfetchable tracks). -/
abbrev FetchFn := List TrackId → Except Unit (List (Option Feat))

/-- The pairs yielded for one successful sub-batch: zip(sub, feats)
truncates to the shorter list, and a None feature dict becomes {}. -/
def zipYields (sub : List TrackId) (feats : List (Option Feat)) : List (TrackId × Feat) :=
  (sub.zip feats).map (fun p => (p.1, p.2.getD emptyFeat))

/-- One pass of the inner while loop of fetch_features_cautious (lines
277-292) at a fixed batch size, presented over the precomputed sub-batches:
returns (pairs yielded, calls attempted with success flag, whether the
whole pass succeeded).  On the first failing sub-batch the pass stops. -/
def walkChunks (fetch : FetchFn) : List (List TrackId) → List (TrackId × Feat) × List (List TrackId × Bool) × Bool
  | [] => ([], [], true)
  | sub :: rest =>
    match fetch sub with
    | .error _ => ([], [(sub, false)], false)
    | .ok feats =>
      let r := walkChunks fetch rest
      (zipYields sub feats ++ r.1, (sub, true) :: r.2.1, r.2.2)

/-- The for-loop over the degrading size ladder (line 275): try each size
until one full pass succeeds; yields of partial passes are kept (the
caller consumes the generator lazily). -/
def ladderRun (fetch : FetchFn) (batch : List TrackId) : List Nat → List (TrackId × Feat) × List (List TrackId × Bool)
  | [] => ([], [])
  | s :: sizes =>
    let r := walkChunks fetch (chunked batch s)
    if r.2.2 then (r.1, r.2.1)
    else
      let r2 := ladderRun fetch batch sizes
      (r.1 ++ r2.1, r.2.1 ++ r2.2)

/-- The batch-size ladder of fetch_features_cautious. -/
def ladderSizes : List Nat := [25, 10, 5, 1]

/-- Model of fetch_features_cautious (lines 274-294): the yielded
(track id, feature record) pairs, together with an audit log of every
audio_features call attempted (queried ids and success flag). -/
def fetch_features_cautious (fetch : FetchFn) (batch : List TrackId) :
    List (TrackId × Feat) × List (List TrackId × Bool) :=
  ladderRun fetch batch ladderSizes

/-- The body of the filtering loop (lines 300-305): keep the id if tempo
and energy are both present and inside the closed windows. -/
def featKeep (tw ew : ℚ × ℚ) (p : TrackId × Feat) : Option TrackId :=
  match p.2.tempo, p.2.energy with
  | some tp, some en =>
    if tw.1 ≤ tp ∧ tp ≤ tw.2 ∧ ew.1 ≤ en ∧ en ≤ ew.2 then some p.1 else none
  | _, _ => none

/-- The hard cap on candidates considered by the filter (line 297). -/
def cappedPool (ids : List TrackId) : List TrackId := ids.take 160

/-- All pairs yielded while audio_filter runs over the capped pool in
25-id groups (line 298). -/
def allYields (fetch : FetchFn) (ids : List TrackId) : List (TrackId × Feat) :=
  ((chunked (cappedPool ids) 25).map (fun g => (fetch_features_cautious fetch g).1)).flatten

/-- Audit of every audio_features call attempted while audio_filter runs. -/
def allCalls (fetch : FetchFn) (ids : List TrackId) : List (List TrackId × Bool) :=
  ((chunked (cappedPool ids) 25).map (fun g => (fetch_features_cautious fetch g).2)).flatten

/-- Model of audio_filter (lines 268-309).  All exceptions of the features
endpoint are caught inside fetch_features_cautious, so the outer fallback
at line 307 (return ids[:80]) is unreachable under this endpoint model and
is not part of the embedding. -/
def audio_filter (fetch : FetchFn) (ids : List TrackId) (tw ew : ℚ × ℚ) : List TrackId :=
  if ids.isEmpty then []
  else uniq ((allYields fetch ids).filterMap (featKeep tw ew))

/-- The property the spec ascribes to the ladder: an id fetched by a
successful call is never queried again by a later call. -/
def noRefetch (log : List (List TrackId × Bool)) : Prop :=
  ∀ i : Fin log.length, ∀ j : Fin log.length, (i : ℕ) < (j : ℕ) →
    (log.get i).2 = true → ∀ x ∈ (log.get i).1, x ∉ (log.get j).1

instance (log : List (List TrackId × Bool)) : Decidable (noRefetch log) := by
  unfold noRefetch; infer_instance

/-- Inputs of one run of main: the environment configuration, the loaded
novelty history, and the oracles for every network read.  The network is
read-only for the composition, so each endpoint is a fixed per-run value. -/
structure Env where
  n_total : Nat
  maxRepeatPct : ℚ
  carryPct : ℚ
  familiarFrac : ℚ
  noveltyMinDiff : ℚ
  historyIds : List TrackId
  current : List TrackId
  topShort : List TrackId
  topMed : List TrackId
  recentPlayed : List TrackId
  savedLib : List TrackId
  recentInPl : List TrackId
  relatedRaw : List TrackId
  genreRaw : List TrackId
  fetch : FetchFn
  tempoLo : ℚ
  tempoHi : ℚ
  energyLo : ℚ
  energyHi : ℚ

/-- Model of build_discovery (lines 312-324): union the provider pools,
drop falsy ids and everything in the avoid set (which the code first
unions with recently played, saved and recently added ids), then apply
the acoustic filter and dedup. -/
def build_discovery (e : Env) (avoid : List TrackId) : List TrackId :=
  let avoidBig := avoid ++ e.recentPlayed ++ e.savedLib ++ e.recentInPl
  let pool0 := uniq e.relatedRaw ++ uniq e.genreRaw
  let pool1 := pool0.filter (fun x => x ≠ "" ∧ x ∉ avoidBig)
  uniq (audio_filter e.fetch pool1 (e.tempoLo, e.tempoHi) (e.energyLo, e.energyHi))

/-- Line 398: repeat_budget = floor(n_total * MAX_REPEAT_PCT). -/
def repeatBudget0 (e : Env) : ℤ := pyFloor ((e.n_total : ℚ) * e.maxRepeatPct)

/-- Line 401: carry_n = floor(n_total * CARRY_OVER_PCT). -/
def carryN (e : Env) : ℤ := pyFloor ((e.n_total : ℚ) * e.carryPct)

/-- Line 403: carry = current[:carry_n] if current else []. -/
def carryOf (e : Env) : List TrackId :=
  if e.current = [] then [] else sliceTo e.current (carryN e)

/-- Line 409: familiar_target = floor(n_total * familiar_ratio). -/
def familiarTarget (e : Env) : ℤ := pyFloor ((e.n_total : ℚ) * e.familiarFrac)

/-- Line 414: familiar source ids from short plus medium term top tracks,
deduplicated (the falsy filter of the comprehension is subsumed by uniq). -/
def familiarSrc (e : Env) : List TrackId := uniq (e.topShort ++ e.topMed)

/-- Line 417: familiar candidates neither carried nor in history. -/
def familiarClean (e : Env) : List TrackId :=
  (familiarSrc e).filter (fun t => t ∉ carryOf e ∧ t ∉ e.historyIds)

/-- Line 418: the first familiar_target clean familiar ids. -/
def basePick (e : Env) : List TrackId := sliceTo (familiarClean e) (familiarTarget e)

/-- Line 420: familiar candidates that are repeats from history. -/
def familiarFillers (e : Env) : List TrackId :=
  (familiarSrc e).filter (fun t => t ∉ carryOf e ∧ t ∈ e.historyIds)

/-- Line 421: how many history repeats the familiar stage takes (zero when
the branch at line 419 is not entered). -/
def fillerNeed (e : Env) : ℤ :=
  if ((basePick e).length : ℤ) < familiarTarget e ∧ 0 < repeatBudget0 e then
    min (familiarTarget e - ((basePick e).length : ℤ)) (repeatBudget0 e)
  else 0

/-- Lines 418-422: the familiar pick after optional history fillers. -/
def familiarPick (e : Env) : List TrackId :=
  basePick e ++ sliceTo (familiarFillers e) (fillerNeed e)

/-- Line 423: the repeat budget left after the familiar stage. -/
def repeatBudget1 (e : Env) : ℤ := repeatBudget0 e - fillerNeed e

/-- Line 426: remaining = max(0, n_total - len(carry) - len(familiar_pick)). -/
def remainingOf (e : Env) : ℤ :=
  max 0 ((e.n_total : ℤ) - ((carryOf e).length : ℤ) - ((familiarPick e).length : ℤ))

/-- Line 427: avoid = set(carry) | set(familiar_pick) | set(history_ids). -/
def avoidOf (e : Env) : List TrackId := carryOf e ++ familiarPick e ++ e.historyIds

/-- Line 428: the discovery pool for this run. -/
def discoveryPool (e : Env) : List TrackId := build_discovery e (avoidOf e)

/-- Line 430: fresh (non-history) discovery ids, capped at remaining. -/
def discoveryFresh (e : Env) : List TrackId :=
  sliceTo ((discoveryPool e).filter (fun d => d ∉ e.historyIds)) (remainingOf e)

/-- Line 432: discovery candidates that are history repeats. -/
def discoveryExtras (e : Env) : List TrackId :=
  (discoveryPool e).filter (fun d => d ∈ e.historyIds)

/-- Line 433: how many history repeats the discovery stage takes (zero when
the branch at line 431 is not entered). -/
def extraNeed (e : Env) : ℤ :=
  if ((discoveryFresh e).length : ℤ) < remainingOf e ∧ 0 < repeatBudget1 e then
    min (remainingOf e - ((discoveryFresh e).length : ℤ)) (repeatBudget1 e)
  else 0

/-- Lines 430-434: the discovery ids chosen by the novelty gate. -/
def discoveryIds (e : Env) : List TrackId :=
  discoveryFresh e ++ sliceTo (discoveryExtras e) (extraNeed e)

/-- Line 438: final_ids = uniq(carry + familiar_pick + discovery_ids)[:n_total]. -/
def final0Of (e : Env) : List TrackId :=
  sliceTo (uniq (carryOf e ++ familiarPick e ++ discoveryIds e)) ((e.n_total : ℕ) : ℤ)

/-- Line 443: overlap = len(set(final_ids) & set(prev_ids)).  final0Of is
duplicate free, so counting its members that occur in prev gives exactly
the cardinality of the set intersection the code computes. -/
def overlapOf (e : Env) : Nat := ((final0Of e).filter (fun t => t ∈ e.current)).length

/-- Lines 444-445: new_pct = 1 - overlap / max(1, len(final_ids)). -/
def newPct (e : Env) : ℚ :=
  1 - (overlapOf e : ℚ) / max 1 (((final0Of e).length : ℕ) : ℚ)

/-- Line 449: shortfall = ceil((NOVELTY_MIN_DIFF - new_pct) * len(final_ids)). -/
def shortfallOf (e : Env) : ℤ :=
  pyCeil ((e.noveltyMinDiff - newPct e) * (((final0Of e).length : ℕ) : ℚ))

/-- Line 451: avoid_more = set(history_ids) | set(prev_ids) | set(final_ids). -/
def avoidMore (e : Env) : List TrackId := e.historyIds ++ e.current ++ final0Of e

/-- Line 452: the re-sampled discovery pool of the novelty fallback. -/
def extraPool (e : Env) : List TrackId := build_discovery e (avoidMore e)

/-- Line 453: extra = [t for t in extra_pool if t not in avoid_more][:shortfall+10]. -/
def extraOf (e : Env) : List TrackId :=
  sliceTo ((extraPool e).filter (fun t => t ∉ avoidMore e)) (shortfallOf e + 10)

/-- The replacement loop of lines 454-460 on the reversed list: walk from
the last index down, substituting entries that occur in prev with the next
unused extra, and leaving everything untouched once extras run out. -/
def replaceRev (prev : List TrackId) : List TrackId → List TrackId → List TrackId
  | [], _ => []
  | x :: xs, [] => x :: replaceRev prev xs []
  | x :: xs, ex :: exs =>
    if x ∈ prev then ex :: replaceRev prev xs exs
    else x :: replaceRev prev xs (ex :: exs)

/-- Lines 454-460 as a function: the in-place loop runs from the end of the
list backwards. -/
def replaceFromEnd (f prev ex : List TrackId) : List TrackId :=
  (replaceRev prev f.reverse ex).reverse

/-- Lines 440-464: the final id list after the novelty check against the
playlist contents read at the start of the run. -/
def finalIds (e : Env) : List TrackId :=
  if e.current ≠ [] ∧ newPct e < e.noveltyMinDiff then
    sliceTo (uniq (replaceFromEnd (final0Of e) e.current (extraOf e))) ((e.n_total : ℕ) : ℤ)
  else final0Of e

/-- A parsed JSON value, for the persisted history document. -/
inductive JVal where
  | null : JVal
  | bool : Bool → JVal
  | num : ℤ → JVal
  | str : String → JVal
  | arr : List JVal → JVal
  | obj : List (String × JVal) → JVal

/-- Python dict .get(key, default) (keys assumed unique, as produced by
json.load): on a non-dict value the attribute lookup raises. -/
def pyGet (v : JVal) (key : String) (dflt : JVal) : Except Unit JVal :=
  match v with
  | .obj fields => .ok ((fields.lookup key).getD dflt)
  | _ => .error ()

/-- Python iteration over a value: lists yield elements, dicts yield keys,
strings yield one-character strings; other values raise TypeError. -/
def asIterList : JVal → Except Unit (List JVal)
  | .arr xs => .ok xs
  | .obj fields => .ok (fields.map (fun f => JVal.str f.1))
  | .str s => .ok (s.data.map (fun c => JVal.str (String.singleton c)))
  | _ => .error ()

/-- The expression e.get("ts", "") >= cutoff needs e to be a dict and the
ts value to be a string (Python 3 raises comparing str to anything else). -/
def tsOf (e : JVal) : Except Unit String := do
  let v ← pyGet e "ts" (.str "")
  match v with
  | .str s => .ok s
  | _ => .error ()

/-- Line 334: the pruning comprehension, keeping entries whose ts string is
at least the cutoff string (ISO timestamps compare consistently with time
under lexicographic string order). -/
def prune_entries (cutoff : String) : List JVal → Except Unit (List JVal)
  | [] => .ok []
  | e :: es =>
    match tsOf e with
    | .error err => .error err
    | .ok s =>
      match prune_entries cutoff es with
      | .error err => .error err
      | .ok rest => .ok (if cutoff ≤ s then e :: rest else rest)

/-- Lines 336-339: the track ids of one (dict) entry; ids that are not
strings cannot match any TrackId later and are abstracted away, and falsy
ids are skipped as in the code. -/
def tracksOf (ent : JVal) : Except Unit (List TrackId) := do
  let v ← pyGet ent "tracks" (.arr [])
  let xs ← asIterList v
  .ok (xs.filterMap (fun j => match j with
    | .str s => if s ≠ "" then some s else none
    | _ => none))

/-- Model of load_history (lines 327-340).  The raw argument is the parsed
file: none models a missing file or content json.load rejects (both are
caught by the except at line 331); some v models file content that parsed
to v.  The cutoff is the ISO string of now minus the lookback window.
Returns the pruned entries and the seen id set, or error when the Python
code would raise out of load_history. -/
def load_history (raw : Option JVal) (cutoff : String) :
    Except Unit (List JVal × List TrackId) := do
  let data := raw.getD (.obj [("entries", .arr [])])
  let entv ← pyGet data "entries" (.arr [])
  let ents ← asIterList entv
  let kept ← prune_entries cutoff ents
  let seens ← kept.mapM tracksOf
  .ok (kept, seens.flatten)

/-- The novelty fraction as claim C10 words it: the share of final tracks
not present in the previous playlist contents. -/
def specNewFraction (e : Env) : ℚ :=
  (((final0Of e).filter (fun t => t ∉ e.current)).length : ℚ)
    / max 1 (((final0Of e).length : ℕ) : ℚ)

/-- The final list as claim C10 describes it: the plain truncated dedup of
carry, familiar and discovery, except when the previous contents are
non-empty and the new fraction is below the threshold, in which case the
backward replacement pass runs, followed by dedup and truncation. -/
def specFinalIds (e : Env) : List TrackId :=
  if e.current ≠ [] ∧ specNewFraction e < e.noveltyMinDiff then
    sliceTo (uniq (replaceFromEnd (final0Of e) e.current (extraOf e))) ((e.n_total : ℕ) : ℤ)
  else sliceTo (uniq (carryOf e ++ familiarPick e ++ discoveryIds e)) ((e.n_total : ℕ) : ℤ)

/-- A feature record inside the test windows used by the concrete runs. -/
def goodFeat : Feat := ⟨some 110, some (7/10)⟩

/-- Features oracle that answers every batch with in-window features. -/
def okFetch : FetchFn := fun sub => .ok (sub.map (fun _ => some goodFeat))

/-- Features oracle that fails every call. -/
def errFetch : FetchFn := fun _ => .error ()

/-- Concrete run input for claim C2: target 2, zero repeat budget, half
carry fraction, the single current track being in history. -/
def cex2Env : Env where
  n_total := 2
  maxRepeatPct := 0
  carryPct := 1/2
  familiarFrac := 1/2
  noveltyMinDiff := 3/5
  historyIds := ["h1"]
  current := ["h1"]
  topShort := ["f1"]
  topMed := []
  recentPlayed := []
  savedLib := []
  recentInPl := []
  relatedRaw := []
  genreRaw := []
  fetch := errFetch
  tempoLo := 0
  tempoHi := 0
  energyLo := 0
  energyHi := 0

/-- Concrete run input for claim C3: target 3, familiar quota 2, three
reachable familiar candidates, empty discovery. -/
def cex3Env : Env where
  n_total := 3
  maxRepeatPct := 0
  carryPct := 0
  familiarFrac := 2/3
  noveltyMinDiff := 3/5
  historyIds := []
  current := []
  topShort := ["f1", "f2", "f3"]
  topMed := []
  recentPlayed := []
  savedLib := []
  recentInPl := []
  relatedRaw := []
  genreRaw := []
  fetch := errFetch
  tempoLo := 0
  tempoHi := 0
  energyLo := 0
  energyHi := 0

/-- Concrete run input for claim C4: the novelty gate under-fills while an
unchosen familiar candidate is available. -/
def cex4Env : Env where
  n_total := 3
  maxRepeatPct := 0
  carryPct := 0
  familiarFrac := 2/3
  noveltyMinDiff := 3/5
  historyIds := []
  current := []
  topShort := ["f1", "f2", "f3"]
  topMed := []
  recentPlayed := []
  savedLib := []
  recentInPl := []
  relatedRaw := []
  genreRaw := []
  fetch := errFetch
  tempoLo := 0
  tempoHi := 0
  energyLo := 0
  energyHi := 0

/-- Concrete run input for claim C6: one carried track that also sits in
the previous playlist, plus enough fresh discovery for the fallback. -/
def cex6Env : Env where
  n_total := 2
  maxRepeatPct := 0
  carryPct := 1/2
  familiarFrac := 0
  noveltyMinDiff := 3/5
  historyIds := []
  current := ["a", "b"]
  topShort := []
  topMed := []
  recentPlayed := []
  savedLib := []
  recentInPl := []
  relatedRaw := ["c", "e"]
  genreRaw := []
  fetch := okFetch
  tempoLo := 100
  tempoHi := 120
  energyLo := 1/2
  energyHi := 4/5

/-- Concrete run input witnessing the amended claim C3. -/
def wit3Env : Env where
  n_total := 2
  maxRepeatPct := 0
  carryPct := 0
  familiarFrac := 1/2
  noveltyMinDiff := 3/5
  historyIds := []
  current := []
  topShort := ["f1", "f2"]
  topMed := []
  recentPlayed := []
  savedLib := []
  recentInPl := []
  relatedRaw := ["d1"]
  genreRaw := []
  fetch := okFetch
  tempoLo := 100
  tempoHi := 120
  energyLo := 1/2
  energyHi := 4/5

/-- Concrete run input witnessing the amended claim C6. -/
def wit6Env : Env where
  n_total := 2
  maxRepeatPct := 0
  carryPct := 1
  familiarFrac := 0
  noveltyMinDiff := 3/5
  historyIds := []
  current := ["a"]
  topShort := []
  topMed := []
  recentPlayed := []
  savedLib := []
  recentInPl := []
  relatedRaw := []
  genreRaw := []
  fetch := errFetch
  tempoLo := 0
  tempoHi := 0
  energyLo := 0
  energyHi := 0

/-- A 25-id batch for exercising the ladder of fetch_features_cautious. -/
def batch25 : List TrackId :=
  ["a01", "a02", "a03", "a04", "a05", "a06", "a07", "a08", "a09", "a10",
   "a11", "a12", "a13", "a14", "a15", "a16", "a17", "a18", "a19", "a20",
   "a21", "a22", "a23", "a24", "a25"]

/-- Features oracle for claim C7: only the first ten-id sub-batch ever
succeeds, every other call raises. -/
def cexFetch7 : FetchFn := fun sub =>
  if sub.length = 10 ∧ sub.headD "" = "a01" then .ok (sub.map (fun _ => some goodFeat))
  else .error ()

/-- History entry with timestamp b inside the lookback window. -/
def jsonEntryKeep : JVal := .obj [("ts", .str "b"), ("tracks", .arr [.str "x"])]

/-- History entry with timestamp a before the cutoff. -/
def jsonEntryOld : JVal := .obj [("ts", .str "a")]

theorem mem_of_mem_uniqAux {x : TrackId} : ∀ {s l : List TrackId},
    x ∈ uniqAux s l → x ∈ l ∧ x ≠ "" ∧ x ∉ s := by
  intro s l
  induction l generalizing s with
  | nil => simp [uniqAux]
  | cons y ys ih =>
    intro hx
    rw [uniqAux] at hx
    by_cases hy : y ≠ "" ∧ y ∉ s
    · rw [if_pos hy] at hx
      rcases List.mem_cons.mp hx with rfl | hx2
      · exact ⟨List.mem_cons_self _ _, hy.1, hy.2⟩
      · obtain ⟨h1, h2, h3⟩ := ih hx2
        exact ⟨List.mem_cons_of_mem _ h1, h2, fun hs => h3 (List.mem_cons_of_mem _ hs)⟩
    · rw [if_neg hy] at hx
      obtain ⟨h1, h2, h3⟩ := ih hx
      exact ⟨List.mem_cons_of_mem _ h1, h2, h3⟩

theorem mem_uniqAux_of {x : TrackId} : ∀ {s l : List TrackId},
    x ∈ l → x ≠ "" → x ∉ s → x ∈ uniqAux s l := by
  intro s l
  induction l generalizing s with
  | nil => simp
  | cons y ys ih =>
    intro hx hne hns
    rw [uniqAux]
    by_cases hy : y ≠ "" ∧ y ∉ s
    · rw [if_pos hy]
      rcases List.mem_cons.mp hx with rfl | hx2
      · exact List.mem_cons_self _ _
      · by_cases hxy : x = y
        · subst hxy; exact List.mem_cons_self _ _
        · exact List.mem_cons_of_mem _
            (ih hx2 hne (by simp only [List.mem_cons]; rintro (h | h) <;> [exact hxy h; exact hns h]))
    · rw [if_neg hy]
      rcases List.mem_cons.mp hx with rfl | hx2
      · push_neg at hy
        by_cases hxe : x = ""
        · exact absurd hxe hne
        · exact absurd (hy hne) hns
      · exact ih hx2 hne hns

theorem mem_uniq {x : TrackId} {l : List TrackId} :
    x ∈ uniq l ↔ x ∈ l ∧ x ≠ "" := by
  constructor
  · intro h
    obtain ⟨h1, h2, _⟩ := mem_of_mem_uniqAux h
    exact ⟨h1, h2⟩
  · rintro ⟨h1, h2⟩
    exact mem_uniqAux_of h1 h2 (List.not_mem_nil x)

theorem nodup_uniqAux : ∀ (s l : List TrackId), (uniqAux s l).Nodup := by
  intro s l
  induction l generalizing s with
  | nil => simp [uniqAux]
  | cons y ys ih =>
    rw [uniqAux]
    by_cases hy : y ≠ "" ∧ y ∉ s
    · rw [if_pos hy]
      refine List.nodup_cons.mpr ⟨?_, ih _⟩
      intro hmem
      exact (mem_of_mem_uniqAux hmem).2.2 (List.mem_cons_self _ _)
    · rw [if_neg hy]; exact ih _

theorem nodup_uniq (l : List TrackId) : (uniq l).Nodup := nodup_uniqAux [] l

theorem uniqAux_sublist : ∀ (s l : List TrackId), (uniqAux s l).Sublist l := by
  intro s l
  induction l generalizing s with
  | nil => simp [uniqAux]
  | cons y ys ih =>
    rw [uniqAux]
    by_cases hy : y ≠ "" ∧ y ∉ s
    · rw [if_pos hy]; exact List.Sublist.cons₂ y (ih _)
    · rw [if_neg hy]; exact List.Sublist.cons y (ih _)

theorem uniq_sublist (l : List TrackId) : (uniq l).Sublist l := uniqAux_sublist [] l

theorem uniqAux_eq_self : ∀ {s l : List TrackId},
    (∀ x ∈ l, x ∉ s) → l.Nodup → "" ∉ l → uniqAux s l = l := by
  intro s l
  induction l generalizing s with
  | nil => intro _ _ _; rfl
  | cons y ys ih =>
    intro hdis hnd hne
    have hy : y ≠ "" ∧ y ∉ s := by
      refine ⟨?_, hdis y (List.mem_cons_self _ _)⟩
      intro h; exact hne (h ▸ List.mem_cons_self _ _)
    rw [uniqAux, if_pos hy]
    have hnd2 := List.nodup_cons.mp hnd
    refine congrArg (y :: ·) (ih ?_ hnd2.2 ?_)
    · intro x hx
      simp only [List.mem_cons]
      rintro (rfl | hxs)
      · exact hnd2.1 hx
      · exact hdis x (List.mem_cons_of_mem _ hx) hxs
    · intro h; exact hne (List.mem_cons_of_mem _ h)

theorem uniq_eq_self {l : List TrackId} (hnd : l.Nodup) (hne : "" ∉ l) : uniq l = l :=
  uniqAux_eq_self (by intro x _; exact List.not_mem_nil x) hnd hne

theorem uniqAux_append : ∀ (s a b : List TrackId),
    uniqAux s (a ++ b) = uniqAux s a ++ uniqAux (seenAfter s a) b := by
  intro s a b
  induction a generalizing s with
  | nil => rfl
  | cons y ys ih =>
    rw [List.cons_append, uniqAux, uniqAux, seenAfter]
    by_cases hy : y ≠ "" ∧ y ∉ s
    · rw [if_pos hy, if_pos hy, if_pos hy, ih, List.cons_append]
    · rw [if_neg hy, if_neg hy, if_neg hy, ih]

theorem subset_seenAfter : ∀ (s l : List TrackId), s ⊆ seenAfter s l := by
  intro s l
  induction l generalizing s with
  | nil => intro x hx; exact hx
  | cons y ys ih =>
    rw [seenAfter]
    by_cases hy : y ≠ "" ∧ y ∉ s
    · rw [if_pos hy]
      intro x hx
      exact ih (y :: s) (List.mem_cons_of_mem _ hx)
    · rw [if_neg hy]; exact ih s

theorem mem_seenAfter_of_mem {x : TrackId} : ∀ {s l : List TrackId},
    x ∈ l → x ≠ "" → x ∈ seenAfter s l := by
  intro s l
  induction l generalizing s with
  | nil => simp
  | cons y ys ih =>
    intro hx hne
    rw [seenAfter]
    by_cases hy : y ≠ "" ∧ y ∉ s
    · rw [if_pos hy]
      rcases List.mem_cons.mp hx with rfl | hx2
      · exact subset_seenAfter _ _ (List.mem_cons_self _ _)
      · exact ih hx2 hne
    · rw [if_neg hy]
      rcases List.mem_cons.mp hx with rfl | hx2
      · push_neg at hy
        exact subset_seenAfter _ _ (hy hne)
      · exact ih hx2 hne

theorem sliceTo_sublist (l : List TrackId) (k : ℤ) : (sliceTo l k).Sublist l := by
  unfold sliceTo
  by_cases h : 0 ≤ k
  · rw [if_pos h]; exact List.take_sublist _ _
  · rw [if_neg h]; exact List.take_sublist _ _

theorem sliceTo_subset (l : List TrackId) (k : ℤ) : sliceTo l k ⊆ l :=
  (sliceTo_sublist l k).subset

theorem sliceTo_zero (l : List TrackId) : sliceTo l 0 = [] := by
  simp [sliceTo]

theorem length_sliceTo_le {k : ℤ} (l : List TrackId) (h : 0 ≤ k) :
    (sliceTo l k).length ≤ k.toNat := by
  rw [sliceTo, if_pos h, List.length_take]
  exact min_le_left _ _

theorem length_sliceTo_of_le {k : ℤ} {l : List TrackId} (h0 : 0 ≤ k)
    (hle : k ≤ (l.length : ℤ)) : (sliceTo l k).length = k.toNat := by
  rw [sliceTo, if_pos h0, List.length_take]
  exact min_eq_left (by omega)

theorem chunkedF_subset {α : Type} {n : Nat} {c : List α} :
    ∀ {fuel : Nat} {xs : List α}, c ∈ chunkedF n fuel xs → c ⊆ xs := by
  intro fuel
  induction fuel with
  | zero =>
    intro xs hc
    cases xs with
    | nil => simp [chunkedF] at hc
    | cons y ys =>
      have heq : chunkedF n 0 (y :: ys) = [y :: ys] := rfl
      rw [heq] at hc
      rcases List.mem_singleton.mp hc with rfl
      exact fun x hx => hx
  | succ fuel ih =>
    intro xs hc
    cases xs with
    | nil => simp [chunkedF] at hc
    | cons y ys =>
      have heq : chunkedF n (fuel + 1) (y :: ys) =
          (y :: ys).take n :: chunkedF n fuel ((y :: ys).drop n) := rfl
      rw [heq] at hc
      rcases List.mem_cons.mp hc with rfl | hc2
      · exact List.take_subset _ _
      · exact (ih hc2).trans (List.drop_subset _ _)

theorem chunked_subset {α : Type} {xs : List α} {n : Nat} {c : List α}
    (hc : c ∈ chunked xs n) : c ⊆ xs := by
  rw [chunked] at hc
  by_cases hn : n = 0
  · rw [if_pos hn] at hc
    by_cases he : xs.isEmpty
    · rw [if_pos he] at hc; simp at hc
    · rw [if_neg he] at hc
      rcases List.mem_singleton.mp hc with rfl
      exact fun x hx => hx
  · rw [if_neg hn] at hc
    exact chunkedF_subset hc

theorem zipYields_fst_mem {p : TrackId × Feat} {sub : List TrackId}
    {feats : List (Option Feat)} (hp : p ∈ zipYields sub feats) : p.1 ∈ sub := by
  rw [zipYields] at hp
  obtain ⟨q, hq, hqp⟩ := List.mem_map.mp hp
  have := List.of_mem_zip hq
  rw [← hqp]
  exact this.1

theorem walkChunks_yield_mem {fetch : FetchFn} {p : TrackId × Feat} :
    ∀ {cs : List (List TrackId)}, p ∈ (walkChunks fetch cs).1 →
      ∃ sub ∈ cs, ∃ feats, fetch sub = .ok feats ∧ p ∈ zipYields sub feats := by
  intro cs
  induction cs with
  | nil => simp [walkChunks]
  | cons sub rest ih =>
    intro hp
    rw [walkChunks] at hp
    cases hf : fetch sub with
    | error err => rw [hf] at hp; simp at hp
    | ok feats =>
      rw [hf] at hp
      simp only [List.mem_append] at hp
      rcases hp with hp1 | hp2
      · exact ⟨sub, List.mem_cons_self _ _, feats, hf, hp1⟩
      · obtain ⟨s2, hs2, f2, hf2, hp3⟩ := ih hp2
        exact ⟨s2, List.mem_cons_of_mem _ hs2, f2, hf2, hp3⟩

theorem walkChunks_call_mem {fetch : FetchFn} {c : List TrackId × Bool} :
    ∀ {cs : List (List TrackId)}, c ∈ (walkChunks fetch cs).2.1 → c.1 ∈ cs := by
  intro cs
  induction cs with
  | nil => simp [walkChunks]
  | cons sub rest ih =>
    intro hc
    rw [walkChunks] at hc
    cases hf : fetch sub with
    | error err =>
      rw [hf] at hc
      rcases List.mem_singleton.mp hc with rfl
      exact List.mem_cons_self _ _
    | ok feats =>
      rw [hf] at hc
      rcases List.mem_cons.mp hc with rfl | hc2
      · exact List.mem_cons_self _ _
      · exact List.mem_cons_of_mem _ (ih hc2)

theorem ladderRun_yield_mem {fetch : FetchFn} {batch : List TrackId} {p : TrackId × Feat} :
    ∀ {sizes : List Nat}, p ∈ (ladderRun fetch batch sizes).1 →
      ∃ s ∈ sizes, ∃ sub ∈ chunked batch s, ∃ feats, fetch sub = .ok feats ∧ p ∈ zipYields sub feats := by
  intro sizes
  induction sizes with
  | nil => simp [ladderRun]
  | cons s rest ih =>
    intro hp
    rw [ladderRun] at hp
    by_cases hok : (walkChunks fetch (chunked batch s)).2.2
    · rw [if_pos hok] at hp
      obtain ⟨sub, hsub, feats, hf, hz⟩ := walkChunks_yield_mem hp
      exact ⟨s, List.mem_cons_self _ _, sub, hsub, feats, hf, hz⟩
    · rw [if_neg hok] at hp
      simp only [List.mem_append] at hp
      rcases hp with hp1 | hp2
      · obtain ⟨sub, hsub, feats, hf, hz⟩ := walkChunks_yield_mem hp1
        exact ⟨s, List.mem_cons_self _ _, sub, hsub, feats, hf, hz⟩
      · obtain ⟨s2, hs2, sub, hsub, feats, hf, hz⟩ := ih hp2
        exact ⟨s2, List.mem_cons_of_mem _ hs2, sub, hsub, feats, hf, hz⟩

theorem ladderRun_call_mem {fetch : FetchFn} {batch : List TrackId} {c : List TrackId × Bool} :
    ∀ {sizes : List Nat}, c ∈ (ladderRun fetch batch sizes).2 →
      ∃ s ∈ sizes, c.1 ∈ chunked batch s := by
  intro sizes
  induction sizes with
  | nil => simp [ladderRun]
  | cons s rest ih =>
    intro hc
    rw [ladderRun] at hc
    by_cases hok : (walkChunks fetch (chunked batch s)).2.2
    · rw [if_pos hok] at hc
      exact ⟨s, List.mem_cons_self _ _, walkChunks_call_mem hc⟩
    · rw [if_neg hok] at hc
      simp only [List.mem_append] at hc
      rcases hc with hc1 | hc2
      · exact ⟨s, List.mem_cons_self _ _, walkChunks_call_mem hc1⟩
      · obtain ⟨s2, hs2, hmem⟩ := ih hc2
        exact ⟨s2, List.mem_cons_of_mem _ hs2, hmem⟩

theorem allYields_fst_mem {fetch : FetchFn} {ids : List TrackId} {p : TrackId × Feat}
    (hp : p ∈ allYields fetch ids) : p.1 ∈ cappedPool ids := by
  rw [allYields] at hp
  obtain ⟨l, hl, hpl⟩ := List.mem_flatten.mp hp
  obtain ⟨g, hg, rfl⟩ := List.mem_map.mp hl
  obtain ⟨s, _, sub, hsub, feats, _, hz⟩ := ladderRun_yield_mem hpl
  exact chunked_subset hg (chunked_subset hsub (zipYields_fst_mem hz))

theorem audio_filter_subset {fetch : FetchFn} {ids : List TrackId} {tw ew : ℚ × ℚ} :
    audio_filter fetch ids tw ew ⊆ ids := by
  intro x hx
  rw [audio_filter] at hx
  by_cases he : ids.isEmpty
  · rw [if_pos he] at hx; simp at hx
  · rw [if_neg he] at hx
    obtain ⟨hmem, _⟩ := mem_uniq.mp hx
    obtain ⟨p, hp, hkeep⟩ := List.mem_filterMap.mp hmem
    have hx1 : p.1 = x := by
      rw [featKeep] at hkeep
      rcases htp : p.2.tempo with _ | tp <;> rcases hen : p.2.energy with _ | en <;>
        rw [htp, hen] at hkeep <;> simp at hkeep
      exact hkeep.2
    rw [← hx1]
    exact List.take_subset _ _ (allYields_fst_mem hp)

theorem bd_mem {e : Env} {avoid : List TrackId} {x : TrackId}
    (hx : x ∈ build_discovery e avoid) : x ∉ avoid ∧ x ≠ "" := by
  rw [build_discovery] at hx
  obtain ⟨hmem, hne⟩ := mem_uniq.mp hx
  have hpool := audio_filter_subset hmem
  have := List.mem_filter.mp hpool
  refine ⟨?_, hne⟩
  have hcond := this.2
  simp only [decide_eq_true_eq] at hcond
  exact fun hav => hcond.2 (by simp only [List.mem_append]; exact Or.inl (Or.inl (Or.inl hav)))

theorem bd_nodup (e : Env) (avoid : List TrackId) : (build_discovery e avoid).Nodup :=
  nodup_uniq _

theorem replaceRev_length (prev : List TrackId) :
    ∀ (l ex : List TrackId), (replaceRev prev l ex).length = l.length := by
  intro l
  induction l with
  | nil => intro ex; rfl
  | cons x xs ih =>
    intro ex
    cases ex with
    | nil => simp [replaceRev, ih]
    | cons e es =>
      rw [replaceRev]
      by_cases hx : x ∈ prev
      · rw [if_pos hx]; simp [ih]
      · rw [if_neg hx]; simp [ih]

theorem replaceRev_mem {prev : List TrackId} {x : TrackId} :
    ∀ {l ex : List TrackId}, x ∈ replaceRev prev l ex → x ∈ l ∨ x ∈ ex := by
  intro l
  induction l with
  | nil => intro ex h; simp [replaceRev] at h
  | cons y ys ih =>
    intro ex h
    cases ex with
    | nil =>
      rw [replaceRev] at h
      rcases List.mem_cons.mp h with rfl | h2
      · exact Or.inl (List.mem_cons_self _ _)
      · rcases ih h2 with h3 | h3
        · exact Or.inl (List.mem_cons_of_mem _ h3)
        · exact Or.inr h3
    | cons e es =>
      rw [replaceRev] at h
      by_cases hy : y ∈ prev
      · rw [if_pos hy] at h
        rcases List.mem_cons.mp h with rfl | h2
        · exact Or.inr (List.mem_cons_self _ _)
        · rcases ih h2 with h3 | h3
          · exact Or.inl (List.mem_cons_of_mem _ h3)
          · exact Or.inr (List.mem_cons_of_mem _ h3)
      · rw [if_neg hy] at h
        rcases List.mem_cons.mp h with rfl | h2
        · exact Or.inl (List.mem_cons_self _ _)
        · rcases ih h2 with h3 | h3
          · exact Or.inl (List.mem_cons_of_mem _ h3)
          · exact Or.inr h3

theorem replaceRev_filter_le (prev : List TrackId) (p : TrackId → Bool) :
    ∀ (l ex : List TrackId),
      ((replaceRev prev l ex).filter p).length ≤ (l.filter p).length + (ex.filter p).length := by
  intro l
  induction l with
  | nil => intro ex; simp [replaceRev]
  | cons x xs ih =>
    intro ex
    cases ex with
    | nil =>
      have h := ih []
      rw [replaceRev]
      by_cases hp : p x <;> simp [List.filter_cons, hp] at h ⊢ <;> omega
    | cons e es =>
      rw [replaceRev]
      by_cases hx : x ∈ prev
      · rw [if_pos hx]
        have h := ih es
        by_cases hpe : p e <;> by_cases hpx : p x <;>
          simp [List.filter_cons, hpe, hpx] at h ⊢ <;> omega
      · rw [if_neg hx]
        have h := ih (e :: es)
        by_cases hpe : p e <;> by_cases hpx : p x <;>
          simp [List.filter_cons, hpe, hpx] at h ⊢ <;> omega

theorem replaceRev_nodup {prev : List TrackId} :
    ∀ {l ex : List TrackId}, l.Nodup → ex.Nodup → (∀ x ∈ ex, x ∉ l) →
      (replaceRev prev l ex).Nodup := by
  intro l
  induction l with
  | nil => intro ex _ _ _; exact List.nodup_nil
  | cons y ys ih =>
    intro ex hl hex hdis
    have hly := List.nodup_cons.mp hl
    cases ex with
    | nil =>
      rw [replaceRev]
      refine List.nodup_cons.mpr ⟨?_, ih hly.2 List.nodup_nil (by simp)⟩
      intro hmem
      rcases replaceRev_mem hmem with h | h
      · exact hly.1 h
      · simp at h
    | cons e es =>
      rw [replaceRev]
      have hee := List.nodup_cons.mp hex
      by_cases hy : y ∈ prev
      · rw [if_pos hy]
        refine List.nodup_cons.mpr ⟨?_, ?_⟩
        · intro hmem
          rcases replaceRev_mem hmem with h | h
          · exact hdis e (List.mem_cons_self _ _) (List.mem_cons_of_mem _ h)
          · exact hee.1 h
        · refine ih hly.2 hee.2 ?_
          intro x hx hxy
          exact hdis x (List.mem_cons_of_mem _ hx) (List.mem_cons_of_mem _ hxy)
      · rw [if_neg hy]
        refine List.nodup_cons.mpr ⟨?_, ?_⟩
        · intro hmem
          rcases replaceRev_mem hmem with h | h
          · exact hly.1 h
          · exact hdis y h (List.mem_cons_self _ _)
        · refine ih hly.2 hex ?_
          intro x hx hxy
          exact hdis x hx (List.mem_cons_of_mem _ hxy)

theorem replaceFromEnd_length (f prev ex : List TrackId) :
    (replaceFromEnd f prev ex).length = f.length := by
  rw [replaceFromEnd, List.length_reverse, replaceRev_length, List.length_reverse]

theorem replaceFromEnd_mem {f prev ex : List TrackId} {x : TrackId}
    (hx : x ∈ replaceFromEnd f prev ex) : x ∈ f ∨ x ∈ ex := by
  rw [replaceFromEnd, List.mem_reverse] at hx
  rcases replaceRev_mem hx with h | h
  · exact Or.inl (List.mem_reverse.mp h)
  · exact Or.inr h

theorem replaceFromEnd_filter_le (f prev ex : List TrackId) (p : TrackId → Bool) :
    ((replaceFromEnd f prev ex).filter p).length ≤ (f.filter p).length + (ex.filter p).length := by
  rw [replaceFromEnd, List.filter_reverse, List.length_reverse]
  have := replaceRev_filter_le prev p f.reverse ex
  rwa [List.filter_reverse, List.length_reverse] at this

theorem replaceFromEnd_nodup {f prev ex : List TrackId} (hf : f.Nodup) (hex : ex.Nodup)
    (hdis : ∀ x ∈ ex, x ∉ f) : (replaceFromEnd f prev ex).Nodup := by
  rw [replaceFromEnd]
  refine List.nodup_reverse.mpr (replaceRev_nodup (List.nodup_reverse.mpr hf) hex ?_)
  intro x hx hxr
  exact hdis x hx (List.mem_reverse.mp hxr)

theorem filter_length_partition {α : Type} (p : α → Bool) :
    ∀ (l : List α), (l.filter p).length + (l.filter (fun x => ! p x)).length = l.length := by
  intro l
  induction l with
  | nil => rfl
  | cons x xs ih =>
    simp only [List.filter_cons]
    by_cases hp : p x
    · rw [if_pos (by simp [hp]), if_neg (by simp [hp])]
      simp only [List.length_cons]
      omega
    · rw [if_neg (by simp [hp]), if_pos (by simp [hp])]
      simp only [List.length_cons]
      omega

/-- Claim C5: for every run the final emitted track list has no duplicate
TrackId: both the plain path and the novelty-fallback path end in a
truncation of uniq. -/
theorem final_ids_nodup (e : Env) : (finalIds e).Nodup := by
  rw [finalIds]
  by_cases h : e.current ≠ [] ∧ newPct e < e.noveltyMinDiff
  · rw [if_pos h]
    exact List.Nodup.sublist (sliceTo_sublist _ _) (nodup_uniq _)
  · rw [if_neg h, final0Of]
    exact List.Nodup.sublist (sliceTo_sublist _ _) (nodup_uniq _)

/-- Claim C1: every id retained by the acoustic filter comes from the
input pool and was yielded by the features fetch with tempo and energy
both present and inside the closed windows; equivalently, an id whose
features were missing or unfetchable is never retained and is never
defaulted to passing. -/
theorem audio_filter_only_in_window (fetch : FetchFn) (ids : List TrackId)
    (tw ew : ℚ × ℚ) (t : TrackId) (ht : t ∈ audio_filter fetch ids tw ew) :
    t ∈ ids ∧ ∃ f : Feat, (t, f) ∈ allYields fetch ids ∧
      ∃ tp en, f.tempo = some tp ∧ f.energy = some en ∧
        tw.1 ≤ tp ∧ tp ≤ tw.2 ∧ ew.1 ≤ en ∧ en ≤ ew.2 := by
  refine ⟨audio_filter_subset ht, ?_⟩
  rw [audio_filter] at ht
  by_cases he : ids.isEmpty
  · rw [if_pos he] at ht; simp at ht
  · rw [if_neg he] at ht
    obtain ⟨hmem, _⟩ := mem_uniq.mp ht
    obtain ⟨p, hp, hkeep⟩ := List.mem_filterMap.mp hmem
    rcases htp : p.2.tempo with _ | tp <;> rcases hen : p.2.energy with _ | en <;>
      rw [featKeep, htp, hen] at hkeep <;> simp at hkeep
    obtain ⟨⟨h1, h2, h3, h4⟩, h5⟩ := hkeep
    refine ⟨p.2, ?_, tp, en, htp, hen, h1, h2, h3, h4⟩
    have hpt : (t, p.2) = p := by rw [← h5]
    rw [hpt]
    exact hp

/-- Witness for claim C1: a concrete pool and oracle where a track is
retained, with its yielded in-window features. -/
theorem audio_filter_only_in_window_witness :
    "d1" ∈ audio_filter okFetch ["d1"] (100, 120) (1/2, 4/5) ∧
      ("d1" ∈ ["d1"] ∧ ∃ f : Feat, ("d1", f) ∈ allYields okFetch ["d1"] ∧
        ∃ tp en, f.tempo = some tp ∧ f.energy = some en ∧
          (100 : ℚ) ≤ tp ∧ tp ≤ 120 ∧ (1/2 : ℚ) ≤ en ∧ en ≤ 4/5) :=
  ⟨by with_unfolding_all decide,
   audio_filter_only_in_window okFetch ["d1"] (100, 120) (1/2, 4/5) "d1"
     (by with_unfolding_all decide)⟩

/-- Claim C7 counterexample: with a 25-id group where the full batch call
fails, the first 10-id sub-batch succeeds, and the next fails, the ladder
drops to size 5 and re-queries ids already fetched successfully at size
10, so a successfully fetched sub-range is fetched again. -/
theorem ladder_refetch_cex : ¬ noRefetch (fetch_features_cautious cexFetch7 batch25).2 := by
  with_unfolding_all decide

/-- Claim C7 amended: every features request issued by the acoustic filter
is an aligned ladder-size sub-range of a single 25-id group of the capped
pool; a failure makes the ladder re-process that whole group from its
start at the next smaller size (so already fetched sub-ranges of the group
are fetched again, as the counterexample shows), but requests never span
outside the group, and other groups are unaffected. -/
theorem ladder_calls_confined (fetch : FetchFn) (ids : List TrackId)
    (c : List TrackId × Bool) (hc : c ∈ allCalls fetch ids) :
    ∃ g, g ∈ chunked (cappedPool ids) 25 ∧ c.1 ⊆ g ∧
      ∃ s, s ∈ ladderSizes ∧ c.1 ∈ chunked g s := by
  rw [allCalls] at hc
  obtain ⟨l, hl, hcl⟩ := List.mem_flatten.mp hc
  obtain ⟨g, hg, rfl⟩ := List.mem_map.mp hl
  obtain ⟨s, hs, hmem⟩ := ladderRun_call_mem hcl
  exact ⟨g, hg, chunked_subset hmem, s, hs, hmem⟩

/-- Witness for the amended claim C7 at a concrete failed call. -/
theorem ladder_calls_confined_witness :
    (batch25, false) ∈ allCalls cexFetch7 batch25 ∧
      ∃ g, g ∈ chunked (cappedPool batch25) 25 ∧ (batch25, false).1 ⊆ g ∧
        ∃ s, s ∈ ladderSizes ∧ (batch25, false).1 ∈ chunked g s :=
  ⟨by with_unfolding_all decide,
   ladder_calls_confined cexFetch7 batch25 (batch25, false) (by with_unfolding_all decide)⟩

/-- Claim C8 counterexample: content that json.load parses to a top-level
array (corrupt for this program, but valid JSON) makes load_history raise
on data.get instead of returning an empty store. -/
theorem load_history_array_raises : load_history (some (.arr [])) "x" = .error () := rfl

/-- Claim C8 amended: a missing state file, or content that json.load
rejects, is recovered as the empty store for every cutoff; only such
unparseable content is recovered, while parseable content of the wrong
shape raises, as the counterexample shows. -/
theorem load_history_missing_empty (cutoff : String) :
    load_history none cutoff = .ok ([], []) := rfl

/-- Claim C9: pruning keeps exactly the entries whose timestamp string is
at or after the cutoff (the cutoff encodes now minus the lookback window,
and ISO timestamp strings order like instants), so every surviving record
is inside the window; and pruning the pruned store again with the same
cutoff returns it unchanged.  Pruning is a pure function of the store and
cutoff, hence deterministic. -/
theorem prune_entries_sound_idempotent (cutoff : String) :
    ∀ (es kept : List JVal), prune_entries cutoff es = .ok kept →
      (∀ ent ∈ kept, ∃ s, tsOf ent = .ok s ∧ cutoff ≤ s) ∧
        prune_entries cutoff kept = .ok kept := by
  intro es
  induction es with
  | nil =>
    intro kept h
    rw [prune_entries] at h
    obtain rfl : ([] : List JVal) = kept := by
      simpa using h
    exact ⟨by simp, rfl⟩
  | cons ent rest ih =>
    intro kept h
    rw [prune_entries] at h
    cases hts : tsOf ent with
    | error err => rw [hts] at h; simp at h
    | ok s =>
      rw [hts] at h
      cases hpr : prune_entries cutoff rest with
      | error err => rw [hpr] at h; simp at h
      | ok r =>
        rw [hpr] at h
        simp only [Except.ok.injEq] at h
        obtain ⟨hsound, hidem⟩ := ih r hpr
        by_cases hle : cutoff ≤ s
        · rw [if_pos hle] at h
          subst h
          constructor
          · intro x hx
            rcases List.mem_cons.mp hx with rfl | hx2
            · exact ⟨s, hts, hle⟩
            · exact hsound x hx2
          · rw [prune_entries, hts, hidem]
            simp only [if_pos hle]
        · rw [if_neg hle] at h
          subst h
          exact ⟨hsound, hidem⟩

/-- Witness for claim C9 at a concrete store and cutoff. -/
theorem prune_entries_sound_idempotent_witness :
    prune_entries "b" [jsonEntryKeep, jsonEntryOld] = .ok [jsonEntryKeep] ∧
      ((∀ ent ∈ [jsonEntryKeep], ∃ s, tsOf ent = .ok s ∧ "b" ≤ s) ∧
        prune_entries "b" [jsonEntryKeep] = .ok [jsonEntryKeep]) := by
  have h1 : tsOf jsonEntryKeep = .ok "b" := rfl
  have h2 : tsOf jsonEntryOld = .ok "a" := rfl
  have hba : ¬ (("b" : String) ≤ "a") := by with_unfolding_all decide
  have hbb : ("b" : String) ≤ "b" := by with_unfolding_all decide
  have hw : prune_entries "b" [jsonEntryKeep, jsonEntryOld] = .ok [jsonEntryKeep] := by
    simp only [prune_entries, h1, h2, if_pos hbb, if_neg hba]
  exact ⟨hw, prune_entries_sound_idempotent "b" [jsonEntryKeep, jsonEntryOld] [jsonEntryKeep] hw⟩

/-- Claim C2 counterexample: with target 2 and repeat budget
floor(2 * 0) = 0, a carried track that sits in the seen set stays in the
final list, which still reaches the target size (so no structural
shortfall is in play), exceeding the claimed bound. -/
theorem novelty_bound_cex :
    ¬ (((finalIds cex2Env).filter (fun t => t ∈ cex2Env.historyIds)).length ≤
        (repeatBudget0 cex2Env).toNat) ∧
      (finalIds cex2Env).length = cex2Env.n_total := by
  with_unfolding_all decide

/-- Claim C3 counterexample: target 3 with three distinct reachable
candidates in the familiar source alone, yet the familiar quota
floor(3 * 2/3) = 2 caps the pick, discovery is empty, no backfill exists,
and the final list has length 2. -/
theorem sizing_cex :
    3 ≤ (uniq (cex3Env.current ++ cex3Env.topShort ++ cex3Env.topMed ++
          cex3Env.relatedRaw ++ cex3Env.genreRaw)).length ∧
      cex3Env.n_total = 3 ∧ (finalIds cex3Env).length ≠ 3 := by
  with_unfolding_all decide

/-- Claim C4 counterexample: the novelty gate under-fills the discovery
quota while an unchosen familiar-pool item (f3) is available, yet the
final list stays short of the target and f3 is not backfilled. -/
theorem backfill_cex :
    ((discoveryIds cex4Env).length : ℤ) < remainingOf cex4Env ∧
      "f3" ∈ familiarClean cex4Env ∧ "f3" ∉ finalIds cex4Env ∧
      (finalIds cex4Env).length < cex4Env.n_total := by
  with_unfolding_all decide

/-- Claim C6 counterexample: the carried track a (also in the previous
playlist, as carried tracks always are) is evicted by the novelty
replacement pass of lines 448-461 even though the final list keeps its
full target length. -/
theorem carry_eviction_cex :
    "a" ∈ carryOf cex6Env ∧ "a" ∉ finalIds cex6Env ∧
      (finalIds cex6Env).length = cex6Env.n_total := by
  with_unfolding_all decide

theorem mem_final0 {e : Env} {x : TrackId} (hx : x ∈ final0Of e) :
    x ∈ carryOf e ∨ x ∈ familiarPick e ∨ x ∈ discoveryIds e := by
  rw [final0Of] at hx
  have h1 := sliceTo_subset _ _ hx
  have h2 := (mem_uniq.mp h1).1
  rcases List.mem_append.mp h2 with h3 | h3
  · rcases List.mem_append.mp h3 with h4 | h4
    · exact Or.inl h4
    · exact Or.inr (Or.inl h4)
  · exact Or.inr (Or.inr h3)

theorem final0_length_le (e : Env) : (final0Of e).length ≤ e.n_total := by
  rw [final0Of]
  have h := length_sliceTo_le (uniq (carryOf e ++ familiarPick e ++ discoveryIds e))
    (Int.natCast_nonneg e.n_total)
  omega

/-- Claim C4 amended: the Composition Engine performs no backfill at all:
no additional familiar items beyond the familiar quota, no re-query with
widened windows, no current-playlist completion.  When the novelty gate
under-fills, the final list is the truncated dedup of carry, familiar and
gated discovery (possibly shorter than the target and never longer), the
only later replenishment being the novelty-pass replacement extras; the
shortfall is not surfaced beyond the ordinary count in the success print
and the per-run CSV. -/
theorem no_backfill_provenance (e : Env) :
    (finalIds e).length ≤ e.n_total ∧
      ∀ x ∈ finalIds e,
        x ∈ carryOf e ∨ x ∈ familiarPick e ∨ x ∈ discoveryIds e ∨ x ∈ extraOf e := by
  rw [finalIds]
  by_cases h : e.current ≠ [] ∧ newPct e < e.noveltyMinDiff
  · rw [if_pos h]
    constructor
    · have := length_sliceTo_le
        (uniq (replaceFromEnd (final0Of e) e.current (extraOf e)))
        (Int.natCast_nonneg e.n_total)
      omega
    · intro x hx
      have hx2 := sliceTo_subset _ _ hx
      have hx3 := (mem_uniq.mp hx2).1
      rcases replaceFromEnd_mem hx3 with h4 | h4
      · rcases mem_final0 h4 with h5 | h5 | h5
        · exact Or.inl h5
        · exact Or.inr (Or.inl h5)
        · exact Or.inr (Or.inr (Or.inl h5))
      · exact Or.inr (Or.inr (Or.inr h4))
  · rw [if_neg h]
    refine ⟨final0_length_le e, ?_⟩
    intro x hx
    rcases mem_final0 hx with h5 | h5 | h5
    · exact Or.inl h5
    · exact Or.inr (Or.inl h5)
    · exact Or.inr (Or.inr (Or.inl h5))

/-- Witness for the amended claim C4 at a concrete run. -/
theorem no_backfill_provenance_witness :
    "f1" ∈ finalIds cex4Env ∧
      ("f1" ∈ carryOf cex4Env ∨ "f1" ∈ familiarPick cex4Env ∨
        "f1" ∈ discoveryIds cex4Env ∨ "f1" ∈ extraOf cex4Env) :=
  ⟨by with_unfolding_all decide,
   (no_backfill_provenance cex4Env).2 "f1" (by with_unfolding_all decide)⟩

theorem need_bounds (e : Env) :
    0 ≤ fillerNeed e ∧ 0 ≤ extraNeed e ∧
      (fillerNeed e).toNat + (extraNeed e).toNat ≤ (repeatBudget0 e).toNat := by
  have h1 : 0 ≤ fillerNeed e ∧ (fillerNeed e = 0 ∨ fillerNeed e ≤ repeatBudget0 e) := by
    rw [fillerNeed]
    split
    · rename_i hc; omega
    · omega
  have h2 : 0 ≤ extraNeed e ∧ (extraNeed e = 0 ∨ extraNeed e ≤ repeatBudget1 e) := by
    rw [extraNeed]
    split
    · rename_i hc; omega
    · omega
  rw [repeatBudget1] at h2
  omega

/-- Claim C2 amended: the familiar and discovery stages together admit at
most floor(N * max_repeat_fraction) history repeats (fresh candidates are
taken first), so the number of final tracks that were in the seen set
before the run is at most that budget plus the number of carried-over
tracks in the seen set: carried tracks bypass the novelty gate entirely
(the counterexample shows the plain bound fails through carry while the
run has no shortfall, and no explicit shortfall report exists in the
code). -/
theorem novelty_repeat_bound (e : Env) :
    ((finalIds e).filter (fun t => t ∈ e.historyIds)).length ≤
      (repeatBudget0 e).toNat + ((carryOf e).filter (fun t => t ∈ e.historyIds)).length := by
  obtain ⟨hn1, hn2, hn3⟩ := need_bounds e
  have hbase : (basePick e).filter (fun t => decide (t ∈ e.historyIds)) = [] := by
    rw [List.filter_eq_nil_iff]
    intro a ha
    have ha2 := sliceTo_subset _ _ ha
    have ha3 := List.mem_filter.mp ha2
    simp only [decide_eq_true_eq] at ha3 ⊢
    exact ha3.2.2
  have hA : ((familiarPick e).filter (fun t => decide (t ∈ e.historyIds))).length ≤
      (fillerNeed e).toNat := by
    rw [familiarPick, List.filter_append, hbase, List.nil_append]
    calc ((sliceTo (familiarFillers e) (fillerNeed e)).filter
            (fun t => decide (t ∈ e.historyIds))).length
        ≤ (sliceTo (familiarFillers e) (fillerNeed e)).length := List.length_filter_le _ _
      _ ≤ (fillerNeed e).toNat := length_sliceTo_le _ hn1
  have hfresh : (discoveryFresh e).filter (fun t => decide (t ∈ e.historyIds)) = [] := by
    rw [List.filter_eq_nil_iff]
    intro a ha
    have ha2 := sliceTo_subset _ _ ha
    have ha3 := List.mem_filter.mp ha2
    simp only [decide_eq_true_eq] at ha3 ⊢
    exact ha3.2
  have hB : ((discoveryIds e).filter (fun t => decide (t ∈ e.historyIds))).length ≤
      (extraNeed e).toNat := by
    rw [discoveryIds, List.filter_append, hfresh, List.nil_append]
    calc ((sliceTo (discoveryExtras e) (extraNeed e)).filter
            (fun t => decide (t ∈ e.historyIds))).length
        ≤ (sliceTo (discoveryExtras e) (extraNeed e)).length := List.length_filter_le _ _
      _ ≤ (extraNeed e).toNat := length_sliceTo_le _ hn2
  have hsub0 : (final0Of e).Sublist (carryOf e ++ familiarPick e ++ discoveryIds e) :=
    (sliceTo_sublist _ _).trans (uniq_sublist _)
  have hF0 := (List.Sublist.filter (fun t => decide (t ∈ e.historyIds)) hsub0).length_le
  rw [List.filter_append, List.filter_append, List.length_append, List.length_append] at hF0
  have hextra : (extraOf e).filter (fun t => decide (t ∈ e.historyIds)) = [] := by
    rw [List.filter_eq_nil_iff]
    intro a ha
    have ha2 := sliceTo_subset _ _ ha
    have ha3 := List.mem_filter.mp ha2
    simp only [decide_eq_true_eq] at ha3 ⊢
    intro hmem
    refine ha3.2 ?_
    rw [avoidMore]
    exact List.mem_append.mpr (Or.inl (List.mem_append.mpr (Or.inl hmem)))
  rw [finalIds]
  by_cases hcond : e.current ≠ [] ∧ newPct e < e.noveltyMinDiff
  · rw [if_pos hcond]
    have hsub2 : (sliceTo (uniq (replaceFromEnd (final0Of e) e.current (extraOf e)))
        ((e.n_total : ℕ) : ℤ)).Sublist (replaceFromEnd (final0Of e) e.current (extraOf e)) :=
      (sliceTo_sublist _ _).trans (uniq_sublist _)
    have h1 := (List.Sublist.filter (fun t => decide (t ∈ e.historyIds)) hsub2).length_le
    have h2 := replaceFromEnd_filter_le (final0Of e) e.current (extraOf e)
      (fun t => decide (t ∈ e.historyIds))
    rw [hextra] at h2
    simp only [List.length_nil] at h2
    omega
  · rw [if_neg hcond]
    omega

/-- Claim C3 amended: the target size is reached not under mere global
reachability but under per-quota sufficiency: when the carried prefix has
no duplicate ids, no falsy id sits in the playlist read, the familiar
clean pool covers the familiar quota, and the fresh discovery pool covers
the remaining quota, the final list has length exactly target_size.  The
counterexample shows mere reachability (enough distinct candidates across
all sources) does not suffice, because the stage quotas are never
backfilled. -/
theorem sizing_quota_sufficient (e : Env)
    (hcn : (carryOf e).Nodup)
    (hce : "" ∉ e.current)
    (hft : 0 ≤ familiarTarget e)
    (hclean : familiarTarget e ≤ ((familiarClean e).length : ℤ))
    (hdisc : remainingOf e ≤
      (((discoveryPool e).filter (fun d => d ∉ e.historyIds)).length : ℤ)) :
    (finalIds e).length = e.n_total := by
  have hcsub : carryOf e ⊆ e.current := by
    rw [carryOf]
    split
    · intro x hx; simp at hx
    · exact sliceTo_subset _ _
  have hcne : "" ∉ carryOf e := fun hmem => hce (hcsub hmem)
  have hbp_len : (basePick e).length = (familiarTarget e).toNat := by
    rw [basePick]; exact length_sliceTo_of_le hft hclean
  have hfn : fillerNeed e = 0 := by
    have hno : ¬ (((basePick e).length : ℤ) < familiarTarget e ∧ 0 < repeatBudget0 e) := by
      rw [hbp_len]; omega
    rw [fillerNeed, if_neg hno]
  have hpick : familiarPick e = basePick e := by
    rw [familiarPick, hfn, sliceTo_zero, List.append_nil]
  have hpick_len : (familiarPick e).length = (familiarTarget e).toNat := by
    rw [hpick, hbp_len]
  have hrem0 : 0 ≤ remainingOf e := le_max_left 0 _
  have hfr_len : (discoveryFresh e).length = (remainingOf e).toNat := by
    rw [discoveryFresh]; exact length_sliceTo_of_le hrem0 hdisc
  have hen : extraNeed e = 0 := by
    have hno : ¬ (((discoveryFresh e).length : ℤ) < remainingOf e ∧ 0 < repeatBudget1 e) := by
      rw [hfr_len]; omega
    rw [extraNeed, if_neg hno]
  have hdid : discoveryIds e = discoveryFresh e := by
    rw [discoveryIds, hen, sliceTo_zero, List.append_nil]
  have hdid_len : (discoveryIds e).length = (remainingOf e).toNat := by
    rw [hdid, hfr_len]
  have hpick_mem : ∀ x ∈ familiarPick e, x ∉ carryOf e ∧ x ∉ e.historyIds ∧ x ≠ "" := by
    intro x hx
    rw [hpick, basePick] at hx
    have hx2 := sliceTo_subset _ _ hx
    rw [familiarClean] at hx2
    have hx3 := List.mem_filter.mp hx2
    simp only [decide_eq_true_eq] at hx3
    rw [familiarSrc] at hx3
    have hx4 := mem_uniq.mp hx3.1
    exact ⟨hx3.2.1, hx3.2.2, hx4.2⟩
  have hpick_nd : (familiarPick e).Nodup := by
    rw [hpick, basePick, familiarClean, familiarSrc]
    exact List.Nodup.sublist (sliceTo_sublist _ _) (List.Nodup.filter _ (nodup_uniq _))
  have hpool_nd : (discoveryPool e).Nodup := by
    rw [discoveryPool]; exact bd_nodup e _
  have hdisc_mem : ∀ x ∈ discoveryIds e, (x ∉ carryOf e ∧ x ∉ familiarPick e) ∧ x ≠ "" := by
    intro x hx
    rw [hdid, discoveryFresh] at hx
    have hx2 := sliceTo_subset _ _ hx
    have hx3 := (List.mem_filter.mp hx2).1
    have hx4 : x ∈ build_discovery e (avoidOf e) := by rw [← discoveryPool]; exact hx3
    obtain ⟨hav, hne⟩ := bd_mem hx4
    rw [avoidOf] at hav
    refine ⟨⟨?_, ?_⟩, hne⟩
    · intro hc
      exact hav (List.mem_append.mpr (Or.inl (List.mem_append.mpr (Or.inl hc))))
    · intro hp
      exact hav (List.mem_append.mpr (Or.inl (List.mem_append.mpr (Or.inr hp))))
  have hdisc_nd : (discoveryIds e).Nodup := by
    rw [hdid, discoveryFresh]
    exact List.Nodup.sublist (sliceTo_sublist _ _) (List.Nodup.filter _ hpool_nd)
  have hbig_nd : (carryOf e ++ familiarPick e ++ discoveryIds e).Nodup := by
    have h12 : (carryOf e ++ familiarPick e).Nodup := by
      refine hcn.append hpick_nd ?_
      intro a hac hap
      exact (hpick_mem a hap).1 hac
    refine h12.append hdisc_nd ?_
    intro a ha12 had
    rcases List.mem_append.mp ha12 with h | h
    · exact (hdisc_mem a had).1.1 h
    · exact (hdisc_mem a had).1.2 h
  have hbig_ne : "" ∉ carryOf e ++ familiarPick e ++ discoveryIds e := by
    intro hmem
    rcases List.mem_append.mp hmem with h | h
    · rcases List.mem_append.mp h with h2 | h2
      · exact hcne h2
      · exact (hpick_mem _ h2).2.2 rfl
    · exact (hdisc_mem _ h).2 rfl
  have huniq := uniq_eq_self hbig_nd hbig_ne
  have hrem_eq : remainingOf e =
      max 0 ((e.n_total : ℤ) - ((carryOf e).length : ℤ) - ((familiarPick e).length : ℤ)) := rfl
  have hf0 : (final0Of e).length = e.n_total := by
    rw [final0Of, sliceTo, if_pos (Int.natCast_nonneg _), huniq, List.length_take,
      List.length_append, List.length_append, inf_eq_min]
    omega
  rw [finalIds]
  by_cases hcond : e.current ≠ [] ∧ newPct e < e.noveltyMinDiff
  · rw [if_pos hcond]
    have hf0nd : (final0Of e).Nodup := by
      rw [final0Of]
      exact List.Nodup.sublist (sliceTo_sublist _ _) (nodup_uniq _)
    have hf0ne : "" ∉ final0Of e := by
      intro h
      rw [final0Of] at h
      exact (mem_uniq.mp (sliceTo_subset _ _ h)).2 rfl
    have hexpool_nd : (extraPool e).Nodup := by
      rw [extraPool]; exact bd_nodup e _
    have hex_nd : (extraOf e).Nodup := by
      rw [extraOf]
      exact List.Nodup.sublist (sliceTo_sublist _ _) (List.Nodup.filter _ hexpool_nd)
    have hex_mem : ∀ x ∈ extraOf e, x ∉ final0Of e ∧ x ≠ "" := by
      intro x hx
      rw [extraOf] at hx
      have hx2 := sliceTo_subset _ _ hx
      have hx3 := List.mem_filter.mp hx2
      simp only [decide_eq_true_eq] at hx3
      have hx4 : x ∈ build_discovery e (avoidMore e) := by rw [← extraPool]; exact hx3.1
      refine ⟨?_, (bd_mem hx4).2⟩
      intro hf
      refine hx3.2 ?_
      rw [avoidMore]
      exact List.mem_append.mpr (Or.inr hf)
    have hrep_nd : (replaceFromEnd (final0Of e) e.current (extraOf e)).Nodup :=
      replaceFromEnd_nodup hf0nd hex_nd (fun x hx => (hex_mem x hx).1)
    have hrep_ne : "" ∉ replaceFromEnd (final0Of e) e.current (extraOf e) := by
      intro h
      rcases replaceFromEnd_mem h with h2 | h2
      · exact hf0ne h2
      · exact (hex_mem _ h2).2 rfl
    have hxlen : (replaceFromEnd (final0Of e) e.current (extraOf e)).length = e.n_total := by
      rw [replaceFromEnd_length, hf0]
    have htn : ((e.n_total : ℕ) : ℤ).toNat = e.n_total := by omega
    rw [uniq_eq_self hrep_nd hrep_ne, sliceTo, if_pos (Int.natCast_nonneg _), htn,
      List.take_of_length_le (le_of_eq hxlen), hxlen]
  · rw [if_neg hcond]
    exact hf0

/-- Witness for the amended claim C3 at a concrete run that reaches its
target size. -/
theorem sizing_quota_sufficient_witness :
    ((carryOf wit3Env).Nodup ∧ "" ∉ wit3Env.current ∧ 0 ≤ familiarTarget wit3Env ∧
      familiarTarget wit3Env ≤ ((familiarClean wit3Env).length : ℤ) ∧
      remainingOf wit3Env ≤
        (((discoveryPool wit3Env).filter (fun d => d ∉ wit3Env.historyIds)).length : ℤ)) ∧
      (finalIds wit3Env).length = wit3Env.n_total :=
  ⟨⟨by with_unfolding_all decide, by with_unfolding_all decide, by with_unfolding_all decide,
    by with_unfolding_all decide, by with_unfolding_all decide⟩,
   sizing_quota_sufficient wit3Env (by with_unfolding_all decide) (by with_unfolding_all decide)
     (by with_unfolding_all decide) (by with_unfolding_all decide) (by with_unfolding_all decide)⟩

/-- Claim C6 amended: through the step-7 merge the precedence does hold:
whenever the carried prefix fits in the target size, the deduplicated
carried tracks form the leading segment of the pre-fallback final list
(so every carried non-falsy track survives the dedup and precedes every
non-carry entry, discovery-only candidates included).  The counterexample
shows the second half of the original claim fails: the later novelty
replacement pass can evict carried tracks, because carried tracks always
belong to the previous playlist contents it replaces. -/
theorem carry_precedence (e : Env) (h : (carryOf e).length ≤ e.n_total) :
    (∀ t ∈ carryOf e, t ≠ "" → t ∈ final0Of e) ∧
      ∃ rest, final0Of e = uniq (carryOf e) ++ rest ∧ ∀ x ∈ rest, x ∉ carryOf e := by
  have hsplit : uniq (carryOf e ++ (familiarPick e ++ discoveryIds e)) =
      uniq (carryOf e) ++ uniqAux (seenAfter [] (carryOf e)) (familiarPick e ++ discoveryIds e) :=
    uniqAux_append _ _ _
  have hlen : (uniq (carryOf e)).length ≤ ((e.n_total : ℕ) : ℤ).toNat := by
    have h2 := (uniq_sublist (carryOf e)).length_le
    omega
  have hform : final0Of e = uniq (carryOf e) ++
      (uniqAux (seenAfter [] (carryOf e)) (familiarPick e ++ discoveryIds e)).take
        (((e.n_total : ℕ) : ℤ).toNat - (uniq (carryOf e)).length) := by
    rw [final0Of, List.append_assoc, hsplit, sliceTo,
      if_pos (Int.natCast_nonneg _), List.take_append_eq_append_take,
      List.take_of_length_le hlen]
  refine ⟨?_, ⟨_, hform, ?_⟩⟩
  · intro t ht htne
    rw [hform]
    exact List.mem_append.mpr (Or.inl (mem_uniqAux_of ht htne (List.not_mem_nil t)))
  · intro x hx
    have hx2 := List.take_subset _ _ hx
    obtain ⟨_, hxne, hxs⟩ := mem_of_mem_uniqAux hx2
    intro hxc
    exact hxs (mem_seenAfter_of_mem hxc hxne)

/-- Witness for the amended claim C6 at a concrete run. -/
theorem carry_precedence_witness :
    (carryOf wit6Env).length ≤ wit6Env.n_total ∧
      ((∀ t ∈ carryOf wit6Env, t ≠ "" → t ∈ final0Of wit6Env) ∧
        ∃ rest, final0Of wit6Env = uniq (carryOf wit6Env) ++ rest ∧
          ∀ x ∈ rest, x ∉ carryOf wit6Env) :=
  ⟨by with_unfolding_all decide, carry_precedence wit6Env (by with_unfolding_all decide)⟩

/-- Claim C10: the final assembly behaves exactly as described: when the
previous playlist contents are empty, or the fraction of final tracks new
against them reaches NOVELTY_MIN_DIFF, the final list is exactly
uniq(carry ++ familiar ++ discovery) truncated to the target; otherwise
the backward replacement pass substitutes previous-playlist entries with
fresh extras (drawn avoiding history, previous and current final ids) and
the result is deduplicated and truncated again.  The code computes the
new fraction as one minus the overlap share; this equals the direct
new-track share whenever the final list is non-empty, and in the empty
corner case both readings produce the same (empty) output. -/
theorem novelty_pass_characterization (e : Env) : finalIds e = specFinalIds e := by
  have hspec : specFinalIds e =
      if e.current ≠ [] ∧ specNewFraction e < e.noveltyMinDiff then
        sliceTo (uniq (replaceFromEnd (final0Of e) e.current (extraOf e))) ((e.n_total : ℕ) : ℤ)
      else final0Of e := rfl
  by_cases hlen : (final0Of e).length = 0
  · have hf0 : final0Of e = [] := List.length_eq_zero.mp hlen
    have hrep : replaceFromEnd ([] : List TrackId) e.current (extraOf e) = [] := rfl
    have hX : sliceTo (uniq (replaceFromEnd ([] : List TrackId) e.current (extraOf e)))
        ((e.n_total : ℕ) : ℤ) = [] := by
      rw [hrep]
      simp [uniq, uniqAux, sliceTo]
    rw [finalIds, hspec]
    split <;> split <;> simp [hf0, hX]
  · have hpos : 0 < (final0Of e).length := Nat.pos_of_ne_zero hlen
    have hpart := filter_length_partition (fun t => decide (t ∈ e.current)) (final0Of e)
    have hfilters : (final0Of e).filter (fun t => !decide (t ∈ e.current)) =
        (final0Of e).filter (fun t => decide (t ∉ e.current)) := by
      refine List.filter_congr ?_
      intro x _
      simp [decide_not]
    have hm : max 1 (((final0Of e).length : ℕ) : ℚ) = (((final0Of e).length : ℕ) : ℚ) := by
      refine max_eq_right ?_
      exact_mod_cast hpos
    have hm0 : ((((final0Of e).length : ℕ)) : ℚ) ≠ 0 := by
      exact_mod_cast hlen
    have heq : newPct e = specNewFraction e := by
      rw [newPct, specNewFraction, hm, one_sub_div hm0]
      congr 1
      have hn : ((final0Of e).filter (fun t => decide (t ∉ e.current))).length + overlapOf e =
          (final0Of e).length := by
        rw [← hfilters]
        unfold overlapOf
        omega
      have hc := congrArg (fun k : ℕ => (k : ℚ)) hn
      push_cast at hc
      linarith
    rw [finalIds, hspec]
    by_cases hA : e.current ≠ [] ∧ newPct e < e.noveltyMinDiff
    · rw [if_pos hA, if_pos (show e.current ≠ [] ∧ specNewFraction e < e.noveltyMinDiff from
        ⟨hA.1, by rw [← heq]; exact hA.2⟩)]
    · rw [if_neg hA, if_neg (show ¬ (e.current ≠ [] ∧ specNewFraction e < e.noveltyMinDiff) from
        fun hB => hA ⟨hB.1, by rw [heq]; exact hB.2⟩)]
